import Mathlib

/-!
Verification of the in-place dense-matrix kernels of `gauss_solve.c`
(Gaussian elimination with back-substitution, LU factorization, LU
reconstruction, and LU factorization with partial pivoting).

The C kernels operate on `double` buffers.  The algebraic claims about them
are stated in exact arithmetic, so the primary embedding models matrix and
vector entries as rationals (`ℚ`); a matrix buffer of runtime dimension `n`
is a function `ℕ → ℕ → ℚ` of which only the entries with both indices below
`n` are ever read or written by the kernels, exactly as in the C code.  Each
C `for` loop that accumulates into a single cell is rendered as a
`Finset` sum, and each loop sweep that writes a set of independent cells is
rendered as a pointwise function update guarded by the loop bounds; the side
conditions justifying this (no read of a cell written earlier in the same
sweep) follow the source line by line and are recorded in the doc comments.

For the IEEE-special-value claim, the scalars are instead modelled by `FV`,
a two-state abstraction of `double`: either a finite rational or a
non-finite value (NaN or an infinity).  The pivoted kernel is written once,
generically over a small dictionary of scalar operations (`Scal`), and
instantiated at both scalar types.
-/

/-- A square matrix buffer: entry `(i, j)` of the C array `A[n][n]` is `M i j`.
Entries with an index `≥ n` are never touched by any kernel. -/
abbrev Mat : Type := ℕ → ℕ → ℚ

/-- A vector buffer of length `n`, as the C array `b[n]`. -/
abbrev Vec : Type := ℕ → ℚ

/-- Iterating an indexed step function: `stepsUpTo f s k` is the state after
the loop bodies `f 0, f 1, …, f (k-1)` have run, starting from `s`.  Every
kernel's outer `for (k = 0; k < n; ++k)` loop is this with `k = n`. -/
def stepsUpTo {σ : Type} (f : ℕ → σ → σ) (s : σ) : ℕ → σ
  | 0 => s
  | k + 1 => f k (stepsUpTo f s k)

/-- One iteration of the outer loop of `gauss_solve_in_place`
(gauss_solve.c lines 14–24).  For each row `i` with `k < i < n` the C body
first overwrites `A[i][k]` with the multiplier `A[i][k] / A[k][k]` and then
updates `A[i][j] -= A[i][k] * A[k][j]` for `k < j < n` and
`b[i] -= A[i][k] * b[k]`; within the iteration, row `k` of `A` and `b k` are
only read, and row `i` reads of `A` at columns `≥ k` happen before the
corresponding writes, so the sweep is the simultaneous update below, with
the stored multiplier `M i k / M k k` substituted for `A[i][k]`. -/
def gaussStep (n k : ℕ) (st : Mat × Vec) : Mat × Vec :=
  let M := st.1
  let v := st.2
  (fun i j =>
    if k < i ∧ i < n then
      if j = k then M i k / M k k
      else if k < j ∧ j < n then M i j - M i k / M k k * M k j
      else M i j
    else M i j,
   fun i => if k < i ∧ i < n then v i - M i k / M k k * v k else v i)

/-- One iteration of the back-substitution loop of `gauss_solve_in_place`
(gauss_solve.c lines 25–30): `b[i] -= A[i][j] * b[j]` for `i < j < n`,
then `b[i] /= A[i][i]`.  Only cell `i` of `b` is written. -/
def backSubStep (n i : ℕ) (U : Mat) (v : Vec) : Vec :=
  fun a => if a = i then (v i - ∑ j ∈ Finset.Ico (i + 1) n, U i j * v j) / U i i else v a

/-- The forward-elimination phase of `gauss_solve_in_place`
(gauss_solve.c lines 14–24). -/
def gaussFwd (n : ℕ) (A : Mat) (b : Vec) : Mat × Vec :=
  stepsUpTo (gaussStep n) (A, b) n

/-- The kernel `gauss_solve_in_place` (gauss_solve.c lines 12–31): forward
elimination over pivots `k = 0, …, n-1`, then back-substitution for
`i = n-1` down to `0` (the iteration counter `c` of the downward loop visits
index `i = n-1-c`).  The back-substitution loop reads `A` but writes only
`b`, so the returned matrix is the forward-phase matrix. -/
def gauss_solve_in_place (n : ℕ) (A : Mat) (b : Vec) : Mat × Vec :=
  ((gaussFwd n A b).1,
   stepsUpTo (fun c v => backSubStep n (n - 1 - c) (gaussFwd n A b).1 v) (gaussFwd n A b).2 n)

/-- First inner sweep of `lu_in_place` at pivot `k`
(gauss_solve.c lines 36–41): `A[k][i] -= ∑_{j<k} A[k][j] * A[j][i]` for
`k ≤ i < n`.  Only row `k` at columns `≥ k` is written; the reads
`A[k][j]` (`j < k`) and `A[j][i]` (`j < k`) are outside the written region. -/
def luPhase1 (n k : ℕ) (M : Mat) : Mat :=
  fun a b =>
    if a = k ∧ k ≤ b ∧ b < n then M a b - ∑ j ∈ Finset.range k, M a j * M j b else M a b

/-- Second inner sweep of `lu_in_place` at pivot `k`
(gauss_solve.c lines 42–49): for `k < i < n`,
`A[i][k] -= ∑_{j<k} A[i][j] * A[j][k]` then `A[i][k] /= A[k][k]`.  Only
column `k` below the diagonal is written; `A[k][k]` is the value produced by
`luPhase1`. -/
def luPhase2 (n k : ℕ) (M : Mat) : Mat :=
  fun a b =>
    if k < a ∧ a < n ∧ b = k then (M a k - ∑ j ∈ Finset.range k, M a j * M j k) / M k k
    else M a b

/-- One iteration of the outer loop of `lu_in_place`
(gauss_solve.c lines 35–50): the row-`k` sweep, then the column-`k` sweep. -/
def luStep (n k : ℕ) (M : Mat) : Mat := luPhase2 n k (luPhase1 n k M)

/-- The kernel `lu_in_place` (gauss_solve.c lines 33–51). -/
def lu_in_place (n : ℕ) (A : Mat) : Mat := stepsUpTo (luStep n) A n

/-- First inner sweep of `lu_in_place_reconstruct` at pivot `k`
(gauss_solve.c lines 56–61): for `k < i < n`, `A[i][k] *= A[k][k]` then
`A[i][k] += ∑_{j<k} A[i][j] * A[j][k]` — the inverse of `luPhase2`. -/
def reconMul (n k : ℕ) (M : Mat) : Mat :=
  fun a b =>
    if k < a ∧ a < n ∧ b = k then M a k * M k k + ∑ j ∈ Finset.range k, M a j * M j k
    else M a b

/-- Second inner sweep of `lu_in_place_reconstruct` at pivot `k`
(gauss_solve.c lines 62–66): `A[k][i] += ∑_{j<k} A[k][j] * A[j][i]` for
`k ≤ i < n` — the inverse of `luPhase1`. -/
def reconAdd (n k : ℕ) (M : Mat) : Mat :=
  fun a b =>
    if a = k ∧ k ≤ b ∧ b < n then M a b + ∑ j ∈ Finset.range k, M a j * M j b else M a b

/-- One iteration of the outer (downward) loop of `lu_in_place_reconstruct`
(gauss_solve.c lines 55–67). -/
def reconStep (n k : ℕ) (M : Mat) : Mat := reconAdd n k (reconMul n k M)

/-- The kernel `lu_in_place_reconstruct` (gauss_solve.c lines 53–68): the
outer loop runs `k = n-1` down to `0`; counter `c` visits `k = n-1-c`. -/
def lu_in_place_reconstruct (n : ℕ) (A : Mat) : Mat :=
  stepsUpTo (fun c M => reconStep n (n - 1 - c) M) A n

/-- The scalar operations a pivoted elimination step needs, so that `plu`
can be written once and instantiated both at exact rationals and at the
finite/non-finite abstraction of `double`.  `gtAbs x y` models the C test
`fabs(x) > fabs(y)`. -/
structure Scal (α : Type) where
  sub : α → α → α
  mul : α → α → α
  div : α → α → α
  gtAbs : α → α → Bool

/-- The pivot-search loop of `plu` (gauss_solve.c lines 79–84) over the list
of remaining row indices, with accumulator `m` (the C `max_row`): `m`
becomes `i` exactly when `fabs(A[i][k]) > fabs(A[max_row][k])`. -/
def maxRowAux {α : Type} (sc : Scal α) (M : ℕ → ℕ → α) (k : ℕ) : List ℕ → ℕ → ℕ
  | [], m => m
  | i :: rest, m => maxRowAux sc M k rest (if sc.gtAbs (M i k) (M m k) then i else m)

/-- The selected pivot row at column `k` (gauss_solve.c lines 79–84):
`max_row` starts at `k` and the scan runs over `i = k+1, …, n-1`. -/
def maxRow {α : Type} (sc : Scal α) (n : ℕ) (M : ℕ → ℕ → α) (k : ℕ) : ℕ :=
  maxRowAux sc M k (List.range' (k + 1) (n - (k + 1))) k

/-- Row swap of `plu` (gauss_solve.c lines 89–93): entries `A[a][j]` and
`A[b][j]` are exchanged for `0 ≤ j < n`. -/
def rowSwap {α : Type} (n a b : ℕ) (M : ℕ → ℕ → α) : ℕ → ℕ → α :=
  fun i j =>
    if j < n ∧ i = a then M b j
    else if j < n ∧ i = b then M a j
    else M i j

/-- Swap of `P[a]` and `P[b]` in the permutation array
(gauss_solve.c lines 96–98). -/
def swapFun (p : ℕ → ℕ) (a b : ℕ) : ℕ → ℕ :=
  fun i => if i = a then p b else if i = b then p a else p i

/-- The pivot-selection and conditional-swap phase of one `plu` iteration
(gauss_solve.c lines 78–99): rows `k` and `max_row` of `A` and the entries
`P[k]`, `P[max_row]` are swapped exactly when `max_row ≠ k`. -/
def pluSwapPhase {α : Type} (sc : Scal α) (n k : ℕ) (st : (ℕ → ℕ → α) × (ℕ → ℕ)) :
    (ℕ → ℕ → α) × (ℕ → ℕ) :=
  let m := maxRow sc n st.1 k
  if m ≠ k then (rowSwap n k m st.1, swapFun st.2 k m) else st

/-- The elimination phase of one `plu` iteration (gauss_solve.c
lines 102–108): for `k < i < n`, `A[i][k] /= A[k][k]` (the stored
multiplier), then `A[i][j] -= A[i][k] * A[k][j]` for `k < j < n`.  This is
the same sweep as in `gaussStep`, without the right-hand side. -/
def elimStep {α : Type} (sc : Scal α) (n k : ℕ) (M : ℕ → ℕ → α) : ℕ → ℕ → α :=
  fun i j =>
    if k < i ∧ i < n then
      if j = k then sc.div (M i k) (M k k)
      else if k < j ∧ j < n then sc.sub (M i j) (sc.mul (sc.div (M i k) (M k k)) (M k j))
      else M i j
    else M i j

/-- One iteration of the outer loop of `plu` (gauss_solve.c lines 77–109). -/
def pluStep {α : Type} (sc : Scal α) (n k : ℕ) (st : (ℕ → ℕ → α) × (ℕ → ℕ)) :
    (ℕ → ℕ → α) × (ℕ → ℕ) :=
  let st1 := pluSwapPhase sc n k st
  (elimStep sc n k st1.1, st1.2)

/-- The kernel `plu` (gauss_solve.c lines 70–110), generic in the scalars:
`P` is initialized to the identity (lines 72–74) and then the pivoted
elimination runs for `k = 0, …, n-1`. -/
def pluRun {α : Type} (sc : Scal α) (n : ℕ) (A : ℕ → ℕ → α) :
    (ℕ → ℕ → α) × (ℕ → ℕ) :=
  stepsUpTo (pluStep sc n) (A, fun i => i) n

/-- Exact-rational scalars: the semantics of the `double` operations of the
C source in exact arithmetic. -/
def ratScal : Scal ℚ :=
  ⟨fun a b => a - b, fun a b => a * b, fun a b => a / b, fun a b => decide (|b| < |a|)⟩

/-- The kernel `plu` at exact-rational scalars; the first component is the
final matrix buffer, the second the permutation array `P`. -/
def plu (n : ℕ) (A : Mat) : Mat × (ℕ → ℕ) := pluRun ratScal n A

/-- A two-state abstraction of IEEE `double`: a finite value with an exact
rational magnitude, or a non-finite value (NaN or an infinity). -/
inductive FV : Type
  | fin (q : ℚ)
  | nonfin
deriving DecidableEq

/-- Subtraction on the abstraction: finite minus finite is finite; any
non-finite operand yields a non-finite result (NaN propagates; `x - ∞`,
`∞ - ∞` are non-finite as well). -/
def FV.sub : FV → FV → FV
  | FV.fin a, FV.fin b => FV.fin (a - b)
  | _, _ => FV.nonfin

/-- Multiplication on the abstraction: any non-finite operand yields a
non-finite result (`∞ · 0` is NaN, `∞ · x` an infinity, NaN propagates). -/
def FV.mul : FV → FV → FV
  | FV.fin a, FV.fin b => FV.fin (a * b)
  | _, _ => FV.nonfin

/-- Division on the abstraction: a finite value divided by a nonzero finite
value is finite; division by zero is non-finite (`0/0` is NaN, `x/0` an
infinity), and a non-finite operand gives a non-finite result.  This is
exact for NaN operands; the one coarse corner is `x / ±∞`, which IEEE makes
`±0` — no theorem below depends on that corner, as the non-finite values
they track arise from `0/0` and are never used as divisors of the tracked
cells. -/
def FV.div : FV → FV → FV
  | FV.fin a, FV.fin b => if b = 0 then FV.nonfin else FV.fin (a / b)
  | _, _ => FV.nonfin

/-- The comparison `fabs(x) > fabs(y)` on the abstraction: exact on finite
values, `false` when an operand is NaN (any comparison with NaN is false;
for infinities this is again a documented coarse corner that no theorem
below depends on). -/
def FV.gtAbs : FV → FV → Bool
  | FV.fin a, FV.fin b => decide (|b| < |a|)
  | _, _ => false

/-- The `double` abstraction packaged as a scalar dictionary. -/
def fvScal : Scal FV := ⟨FV.sub, FV.mul, FV.div, FV.gtAbs⟩

/-- The unit lower-triangular factor read off a packed buffer: strict-lower
entries from the buffer, implicit unit diagonal, zero above. -/
def Lof (M : Mat) (i t : ℕ) : ℚ :=
  if t < i then M i t else if t = i then 1 else 0

/-- The upper-triangular factor read off a packed buffer: entries on and
above the diagonal from the buffer, zero below. -/
def Uof (M : Mat) (t j : ℕ) : ℚ :=
  if t ≤ j then M t j else 0

/-- The pivots `A[k][k]` encountered by the forward elimination of
`gauss_solve_in_place` are all nonzero: the pivot of step `k` is cell
`(k, k)` of the state entering step `k` (rows `≤ k` are not modified from
step `k` on). -/
abbrev GaussPivotsNZ (n : ℕ) (A : Mat) (b : Vec) : Prop :=
  ∀ k : ℕ, k < n → (stepsUpTo (gaussStep n) (A, b) k).1 k k ≠ 0

/-- The divisors `A[k][k]` used by `lu_in_place` are all nonzero: the
divisor of step `k` (used only when some row `i` with `k < i < n` exists,
i.e. when `k + 1 < n`) is cell `(k, k)` after the row-`k` sweep of step
`k`. -/
abbrev LuDivisorsNZ (n : ℕ) (A : Mat) : Prop :=
  ∀ k : ℕ, k < n → k + 1 < n → luPhase1 n k (stepsUpTo (luStep n) A k) k k ≠ 0

/-- The divisors used by `plu` are all nonzero: the divisor of step `k`
(used only when `k + 1 < n`) is cell `(k, k)` after the conditional row
swap of step `k`. -/
abbrev PluPivotsNZ (n : ℕ) (A : Mat) : Prop :=
  ∀ k : ℕ, k < n → k + 1 < n →
    (pluSwapPhase ratScal n k (stepsUpTo (pluStep ratScal n) (A, fun i => i) k)).1 k k ≠ 0

/-- A counted loop with explicit fuel: from counter `k`, run the bodies
`f k, f (k+1), …` until the counter reaches `n`, failing with `none` when
the fuel is exhausted first.  This makes termination of each kernel's outer
loop a statement rather than a typing artifact. -/
def iterFuel {σ : Type} (f : ℕ → σ → σ) (n : ℕ) : ℕ → ℕ → σ → Option σ
  | 0, k, s => if n ≤ k then some s else none
  | fuel + 1, k, s => if n ≤ k then some s else iterFuel f n fuel (k + 1) (f k s)

/-- The fueled run of `gauss_solve_in_place`: both loops are given exactly
`n` units of fuel. -/
def gaussFueled (n : ℕ) (A : Mat) (b : Vec) : Option (Mat × Vec) :=
  (iterFuel (gaussStep n) n n 0 (A, b)).bind fun st =>
    (iterFuel (fun c v => backSubStep n (n - 1 - c) st.1 v) n n 0 st.2).map fun v =>
      (st.1, v)

/-- The fueled run of `lu_in_place`. -/
def luFueled (n : ℕ) (A : Mat) : Option Mat :=
  iterFuel (luStep n) n n 0 A

/-- The fueled run of `lu_in_place_reconstruct`. -/
def reconFueled (n : ℕ) (A : Mat) : Option Mat :=
  iterFuel (fun c M => reconStep n (n - 1 - c) M) n n 0 A

/-- The fueled run of `plu` at exact-rational scalars. -/
def pluFueled (n : ℕ) (A : Mat) : Option (Mat × (ℕ → ℕ)) :=
  iterFuel (pluStep ratScal n) n n 0 (A, fun i => i)

/-- A concrete matrix buffer built from a list of rows (entries outside the
listed rectangle read as `0`). -/
def ofRows (L : List (List ℚ)) : Mat :=
  fun i j => (((L.get? i).getD []).get? j).getD 0

/-- A concrete vector buffer built from a list. -/
def ofVec (L : List ℚ) : Vec :=
  fun i => (L.get? i).getD 0

/-- The 3×3 test matrix of the repository's driver (`main.c`,
`test_gauss_solve`). -/
def Aex : Mat := ofRows [[2, 3, -1], [4, 1, 2], [-2, 7, 2]]

/-- The right-hand side of the driver's test system. -/
def bex : Vec := ofVec [5, 6, 3]

/-- The 3×3 test matrix of the repository's PLU driver, which needs an
actual row swap at the first pivot. -/
def Apx : Mat := ofRows [[2, -1, -2], [-4, 6, 3], [-4, -2, 8]]

/-! ### The state of `lu_in_place` through its outer loop -/

/-- The buffer of `lu_in_place` after the outer iterations `0, …, k-1`. -/
def luAt (n : ℕ) (A : Mat) (k : ℕ) : Mat := stepsUpTo (luStep n) A k

/-- The vector of `gauss_solve_in_place`'s back-substitution loop after `c`
iterations (the counter `c` visits row `i = n-1-c`). -/
def backSubAt (n : ℕ) (U : Mat) (v : Vec) (c : ℕ) : Vec :=
  stepsUpTo (fun c v => backSubStep n (n - 1 - c) U v) v c

/-- Specification device for the `plu` loop: after `k` pivot steps with
buffer `M` and permutation `p`, each permuted original entry decomposes
into the already-final multiplier-times-`U` cross terms plus the residual
cell (final `U` row, zero, or current Schur-complement value). -/
def PluInvariant (n : ℕ) (A : Mat) (k : ℕ) (M : Mat) (p : ℕ → ℕ) : Prop :=
  ∀ i j : ℕ, i < n → j < n →
    A (p i) j = (∑ t ∈ Finset.range (min i k), M i t * Uof M t j) +
      (if i < k then Uof M i j else if j < k then 0 else M i j)

/-- A 2×2 matrix realizing the spec's pivot-selection scenario at column 0:
the natural pivot is `0` and the entry below it is `5`. -/
def Apw : Mat := ofRows [[0, 1], [5, 2]]

/-- A 2×2 `double`-abstraction matrix whose column 0 is entirely zero. -/
def Azc : ℕ → ℕ → FV := fun _ j => if j = 0 then FV.fin 0 else FV.fin 1

lemma luAt_succ (n : ℕ) (A : Mat) (k : ℕ) :
    luAt n A (k + 1) = luStep n k (luAt n A k) := rfl

lemma luPhase1_row (n k b : ℕ) (M : Mat) (hb : k ≤ b) (hbn : b < n) :
    luPhase1 n k M k b = M k b - ∑ j ∈ Finset.range k, M k j * M j b := by
  simp only [luPhase1]
  rw [if_pos (show True ∧ k ≤ b ∧ b < n from ⟨trivial, hb, hbn⟩)]

lemma luPhase1_offrow (n k : ℕ) (M : Mat) {a b : ℕ} (h : a ≠ k) :
    luPhase1 n k M a b = M a b := by
  simp only [luPhase1]
  rw [if_neg (by tauto)]

lemma luStep_untouched (n k : ℕ) (M : Mat) {a b : ℕ}
    (h1 : ¬(a = k ∧ k ≤ b ∧ b < n)) (h2 : ¬(k < a ∧ a < n ∧ b = k)) :
    luStep n k M a b = M a b := by
  simp only [luStep, luPhase2]
  rw [if_neg h2]
  simp only [luPhase1]
  rw [if_neg h1]

lemma luStep_row (n k b : ℕ) (M : Mat) (hb : k ≤ b) (hbn : b < n) :
    luStep n k M k b = M k b - ∑ j ∈ Finset.range k, M k j * M j b := by
  simp only [luStep, luPhase2]
  rw [if_neg (by omega), luPhase1_row n k b M hb hbn]

lemma luStep_col (n k a : ℕ) (M : Mat) (ha : k < a) (han : a < n) :
    luStep n k M a k =
      (M a k - ∑ j ∈ Finset.range k, M a j * M j k) /
        (M k k - ∑ j ∈ Finset.range k, M k j * M j k) := by
  have hkn : k < n := lt_trans ha han
  have hsum : ∑ j ∈ Finset.range k, luPhase1 n k M a j * luPhase1 n k M j k
      = ∑ j ∈ Finset.range k, M a j * M j k := by
    refine Finset.sum_congr rfl fun j hj => ?_
    have hj' : j < k := Finset.mem_range.mp hj
    rw [luPhase1_offrow n k M (by omega), luPhase1_offrow n k M (by omega)]
  simp only [luStep, luPhase2]
  rw [if_pos (show k < a ∧ a < n ∧ True from ⟨ha, han, trivial⟩),
    luPhase1_offrow n k M (by omega), hsum, luPhase1_row n k k M le_rfl hkn]

/-- Invariant of the `lu_in_place` outer loop: after `k` iterations the
entries with both indices `≥ k` still hold the original matrix, each
upper-or-diagonal entry `(i, j)` with `i < k` satisfies the incremental
recurrence for `U`, and each strict-lower entry with `j < k` satisfies the
recurrence for `L`. -/
lemma luAt_inv (n : ℕ) (A : Mat) :
    ∀ k, k ≤ n → ∀ i j, i < n → j < n →
      (k ≤ i → k ≤ j → luAt n A k i j = A i j) ∧
      (i ≤ j → i < k →
        luAt n A k i j
          = A i j - ∑ t ∈ Finset.range i, luAt n A k i t * luAt n A k t j) ∧
      (j < i → j < k →
        luAt n A k i j
          = (A i j - ∑ t ∈ Finset.range j, luAt n A k i t * luAt n A k t j)
              / luAt n A k j j) := by
  intro k
  induction k with
  | zero =>
    intro _ i j hi hj
    exact ⟨fun _ _ => rfl, fun _ h => absurd h (Nat.not_lt_zero i),
      fun _ h => absurd h (Nat.not_lt_zero j)⟩
  | succ k IH =>
    intro hk1 i j hi hj
    have hkn : k < n := hk1
    have ih := IH (le_of_lt hkn)
    refine ⟨?_, ?_, ?_⟩
    · intro h1 h2
      rw [luAt_succ, luStep_untouched n k _ (by omega) (by omega)]
      exact (ih i j hi hj).1 (by omega) (by omega)
    · intro hij hik
      rcases Nat.lt_succ_iff_lt_or_eq.mp hik with hikk | rfl
      · have hsum : ∑ t ∈ Finset.range i, luAt n A (k+1) i t * luAt n A (k+1) t j
            = ∑ t ∈ Finset.range i, luAt n A k i t * luAt n A k t j := by
          refine Finset.sum_congr rfl fun t ht => ?_
          have ht' : t < i := Finset.mem_range.mp ht
          rw [luAt_succ, luStep_untouched n k _ (by omega) (by omega),
            luStep_untouched n k _ (by omega) (by omega)]
        rw [hsum, luAt_succ, luStep_untouched n k _ (by omega) (by omega)]
        exact (ih i j hi hj).2.1 hij hikk
      · -- i = k: the row-k sweep of this iteration writes the cell
        have hsum : ∑ t ∈ Finset.range i, luAt n A (i+1) i t * luAt n A (i+1) t j
            = ∑ t ∈ Finset.range i, luAt n A i i t * luAt n A i t j := by
          refine Finset.sum_congr rfl fun t ht => ?_
          have ht' : t < i := Finset.mem_range.mp ht
          rw [luAt_succ, luStep_untouched n i _ (by omega) (by omega),
            luStep_untouched n i _ (by omega) (by omega)]
        rw [hsum, luAt_succ, luStep_row n i j _ hij hj,
          (ih i j hi hj).1 le_rfl hij]
    · intro hji hjk
      rcases Nat.lt_succ_iff_lt_or_eq.mp hjk with hjkk | rfl
      · have hsum : ∑ t ∈ Finset.range j, luAt n A (k+1) i t * luAt n A (k+1) t j
            = ∑ t ∈ Finset.range j, luAt n A k i t * luAt n A k t j := by
          refine Finset.sum_congr rfl fun t ht => ?_
          have ht' : t < j := Finset.mem_range.mp ht
          rw [luAt_succ, luStep_untouched n k _ (by omega) (by omega),
            luStep_untouched n k _ (by omega) (by omega)]
        rw [hsum, luAt_succ, luStep_untouched n k _ (by omega) (by omega),
          luStep_untouched n k _ (by omega) (by omega)]
        exact (ih i j hi hj).2.2 hji hjkk
      · -- j = k: the column-k sweep of this iteration writes the cell
        have hsum : ∑ t ∈ Finset.range j, luAt n A (j+1) i t * luAt n A (j+1) t j
            = ∑ t ∈ Finset.range j, luAt n A j i t * luAt n A j t j := by
          refine Finset.sum_congr rfl fun t ht => ?_
          have ht' : t < j := Finset.mem_range.mp ht
          rw [luAt_succ, luStep_untouched n j _ (by omega) (by omega),
            luStep_untouched n j _ (by omega) (by omega)]
        rw [hsum, luAt_succ, luStep_col n j i _ hji hi,
          luStep_row n j j _ le_rfl hj, (ih i j hi hj).1 (le_of_lt hji) le_rfl]

/-- The Doolittle recurrences satisfied by the final buffer of
`lu_in_place`: each entry on or above the diagonal is the original entry
minus the accumulated cross terms, and each entry below the diagonal is the
corresponding quotient. -/
lemma lu_spec (n : ℕ) (A : Mat) {i j : ℕ} (hi : i < n) (hj : j < n) :
    (i ≤ j → lu_in_place n A i j
        = A i j - ∑ t ∈ Finset.range i, lu_in_place n A i t * lu_in_place n A t j) ∧
    (j < i → lu_in_place n A i j
        = (A i j - ∑ t ∈ Finset.range j, lu_in_place n A i t * lu_in_place n A t j)
            / lu_in_place n A j j) := by
  have h := luAt_inv n A n le_rfl i j hi hj
  exact ⟨fun hij => h.2.1 hij hi, fun hji => h.2.2 hji hj⟩

lemma luAt_agree (n : ℕ) (A : Mat) {i j m : ℕ} (d : ℕ)
    (hfin : (i ≤ j ∧ i < m) ∨ (j < i ∧ j < m)) :
    luAt n A (m + d) i j = luAt n A m i j := by
  induction d with
  | zero => rfl
  | succ d IH =>
    rw [show m + (d + 1) = (m + d) + 1 from rfl, luAt_succ,
      luStep_untouched n (m + d) _ (by omega) (by omega)]
    exact IH

/-- A divisor that `lu_in_place` uses at step `k` is exactly the final
value of the diagonal cell `(k, k)`: the cell is finalized by the row-`k`
sweep of step `k` and never touched again. -/
lemma luDivisors_final (n : ℕ) (A : Mat) (h : LuDivisorsNZ n A) :
    ∀ k : ℕ, k + 1 < n → lu_in_place n A k k ≠ 0 := by
  intro k hk
  have hkn : k < n := by omega
  have hstab := luAt_agree n A (i := k) (j := k) (m := k + 1) (n - (k + 1))
    (Or.inl ⟨le_rfl, by omega⟩)
  rw [show (k + 1) + (n - (k + 1)) = n from by omega] at hstab
  have hdiv : luAt n A (k + 1) k k = luPhase1 n k (luAt n A k) k k := by
    rw [luAt_succ, luStep_row n k k _ le_rfl hkn, luPhase1_row n k k _ le_rfl hkn]
  have : lu_in_place n A k k = luPhase1 n k (luAt n A k) k k := by
    rw [show lu_in_place n A = luAt n A n from rfl, hstab, hdiv]
  rw [this]
  exact h k hkn hk

/-- Splitting a product sum against the packed unit-lower factor: only the
strict-lower entries and the implicit unit diagonal contribute. -/
lemma sum_Lof (M : Mat) (g : ℕ → ℚ) {n i : ℕ} (hi : i < n) :
    ∑ t ∈ Finset.range n, Lof M i t * g t
      = (∑ t ∈ Finset.range i, M i t * g t) + g i := by
  rw [← Finset.sum_range_add_sum_Ico _ (show i + 1 ≤ n from hi)]
  have h1 : ∑ t ∈ Finset.Ico (i + 1) n, Lof M i t * g t = 0 := by
    refine Finset.sum_eq_zero fun t ht => ?_
    have ht' := Finset.mem_Ico.mp ht
    have : Lof M i t = 0 := by
      simp only [Lof]
      rw [if_neg (by omega), if_neg (by omega)]
    rw [this, zero_mul]
  rw [h1, add_zero, Finset.sum_range_succ]
  have h2 : Lof M i i = 1 := by
    simp only [Lof]
    rw [if_neg (by omega), if_pos trivial]
  rw [h2, one_mul]
  congr 1
  refine Finset.sum_congr rfl fun t ht => ?_
  have ht' : t < i := Finset.mem_range.mp ht
  simp only [Lof]
  rw [if_pos ht']

/-- The packed output of `lu_in_place` is a factorization of the original
matrix: reading the unit-lower factor `L` from the strict-lower entries and
the upper factor `U` from the rest reproduces `A`, provided every divisor
the kernel used was nonzero. -/
lemma lu_decomp (n : ℕ) (A : Mat)
    (hpiv : ∀ k : ℕ, k + 1 < n → lu_in_place n A k k ≠ 0)
    {i j : ℕ} (hi : i < n) (hj : j < n) :
    A i j = ∑ t ∈ Finset.range n,
      Lof (lu_in_place n A) i t * Uof (lu_in_place n A) t j := by
  rw [sum_Lof (lu_in_place n A) (fun t => Uof (lu_in_place n A) t j) hi]
  rcases le_or_lt i j with hij | hji
  · have hU : ∑ t ∈ Finset.range i, lu_in_place n A i t * Uof (lu_in_place n A) t j
        = ∑ t ∈ Finset.range i, lu_in_place n A i t * lu_in_place n A t j := by
      refine Finset.sum_congr rfl fun t ht => ?_
      have ht' : t < i := Finset.mem_range.mp ht
      simp only [Uof]
      rw [if_pos (by omega)]
    have hUij : Uof (lu_in_place n A) i j = lu_in_place n A i j := by
      simp only [Uof]
      rw [if_pos hij]
    rw [hU, hUij, (lu_spec n A hi hj).1 hij]
    ring
  · have hsplit : ∑ t ∈ Finset.range i, lu_in_place n A i t * Uof (lu_in_place n A) t j
        = (∑ t ∈ Finset.range j, lu_in_place n A i t * lu_in_place n A t j)
            + lu_in_place n A i j * lu_in_place n A j j := by
      rw [← Finset.sum_range_add_sum_Ico _ (show j + 1 ≤ i from hji)]
      have hz : ∑ t ∈ Finset.Ico (j + 1) i,
          lu_in_place n A i t * Uof (lu_in_place n A) t j = 0 := by
        refine Finset.sum_eq_zero fun t ht => ?_
        have ht' := Finset.mem_Ico.mp ht
        have : Uof (lu_in_place n A) t j = 0 := by
          simp only [Uof]
          rw [if_neg (by omega)]
        rw [this, mul_zero]
      rw [hz, add_zero, Finset.sum_range_succ]
      have hUjj : Uof (lu_in_place n A) j j = lu_in_place n A j j := by
        simp only [Uof]
        rw [if_pos le_rfl]
      rw [hUjj]
      congr 1
      refine Finset.sum_congr rfl fun t ht => ?_
      have ht' : t < j := Finset.mem_range.mp ht
      simp only [Uof]
      rw [if_pos (by omega)]
    have hUij : Uof (lu_in_place n A) i j = 0 := by
      simp only [Uof]
      rw [if_neg (by omega)]
    have hnz : lu_in_place n A j j ≠ 0 := hpiv j (by omega)
    rw [hsplit, hUij, add_zero, (lu_spec n A hi hj).2 hji, div_mul_cancel₀ _ hnz]
    ring

/-! ### The forward elimination of `gauss_solve_in_place` computes LU -/

lemma stepsUpTo_succ {σ : Type} (f : ℕ → σ → σ) (s : σ) (k : ℕ) :
    stepsUpTo f s (k + 1) = f k (stepsUpTo f s k) := rfl

lemma stepsUpTo_zero {σ : Type} (f : ℕ → σ → σ) (s : σ) :
    stepsUpTo f s 0 = s := rfl

lemma gaussStep_fst_notrow (n k : ℕ) (st : Mat × Vec) {i j : ℕ}
    (h : ¬(k < i ∧ i < n)) : (gaussStep n k st).1 i j = st.1 i j := by
  simp only [gaussStep]
  rw [if_neg h]

lemma gaussStep_fst_mult (n k : ℕ) (st : Mat × Vec) {i : ℕ}
    (hik : k < i) (hi : i < n) :
    (gaussStep n k st).1 i k = st.1 i k / st.1 k k := by
  simp only [gaussStep]
  rw [if_pos ⟨hik, hi⟩]
  simp

lemma gaussStep_fst_keep (n k : ℕ) (st : Mat × Vec) {i j : ℕ}
    (hik : k < i) (hi : i < n) (hjk : j < k) :
    (gaussStep n k st).1 i j = st.1 i j := by
  simp only [gaussStep]
  rw [if_pos ⟨hik, hi⟩, if_neg (by omega), if_neg (by omega)]

lemma gaussStep_fst_upd (n k : ℕ) (st : Mat × Vec) {i j : ℕ}
    (hik : k < i) (hi : i < n) (hkj : k < j) (hj : j < n) :
    (gaussStep n k st).1 i j
      = st.1 i j - st.1 i k / st.1 k k * st.1 k j := by
  simp only [gaussStep]
  rw [if_pos ⟨hik, hi⟩, if_neg (by omega), if_pos ⟨hkj, hj⟩]

lemma gaussStep_snd_hi (n k : ℕ) (st : Mat × Vec) {i : ℕ}
    (hik : k < i) (hi : i < n) :
    (gaussStep n k st).2 i = st.2 i - st.1 i k / st.1 k k * st.2 k := by
  simp only [gaussStep]
  rw [if_pos ⟨hik, hi⟩]

lemma gaussStep_snd_lo (n k : ℕ) (st : Mat × Vec) {i : ℕ}
    (h : ¬(k < i ∧ i < n)) : (gaussStep n k st).2 i = st.2 i := by
  simp only [gaussStep]
  rw [if_neg h]

/-- Invariant of the forward-elimination loop: after `k` iterations, rows
`≤ k` and columns `< k` already hold their final values — which are the
corresponding entries of `lu_in_place`'s output — while the trailing block
holds the partially eliminated Schur-complement values.  This identifies
the two distinct update orders of `gauss_solve_in_place` and `lu_in_place`
entry by entry. -/
lemma gaussAt_fst_inv (n : ℕ) (A : Mat) (b : Vec) :
    ∀ k, k ≤ n → ∀ i j, i < n → j < n →
      (stepsUpTo (gaussStep n) (A, b) k).1 i j =
        if i ≤ k ∨ j < k then lu_in_place n A i j
        else A i j - ∑ t ∈ Finset.range k,
          lu_in_place n A i t * lu_in_place n A t j := by
  intro k
  induction k with
  | zero =>
    intro _ i j hi hj
    rcases Nat.eq_zero_or_pos i with rfl | hpos
    · rw [if_pos (Or.inl le_rfl), (lu_spec n A hi hj).1 (Nat.zero_le j)]
      simp [stepsUpTo]
    · rw [if_neg (by omega)]
      simp [stepsUpTo]
  | succ k IH =>
    intro hk1 i j hi hj
    have hkn : k < n := hk1
    have ih := IH (le_of_lt hkn)
    by_cases hik : k < i
    · rcases lt_trichotomy j k with hjk | rfl | hkj
      · rw [stepsUpTo_succ, gaussStep_fst_keep n k _ hik hi hjk]
        have h1 := ih i j hi hj
        rw [if_pos (Or.inr hjk)] at h1
        rw [h1, if_pos (Or.inr (by omega))]
      · rw [stepsUpTo_succ, gaussStep_fst_mult n j _ hik hi]
        have h1 := ih i j hi hj
        rw [if_neg (by omega)] at h1
        have h2 := ih j j hj hj
        rw [if_pos (Or.inl le_rfl)] at h2
        rw [h1, h2, if_pos (Or.inr (by omega))]
        exact ((lu_spec n A hi hj).2 hik).symm
      · rw [stepsUpTo_succ, gaussStep_fst_upd n k _ hik hi hkj hj]
        have h1 := ih i j hi hj
        rw [if_neg (by omega)] at h1
        have h2 := ih i k hi hkn
        rw [if_neg (by omega)] at h2
        have h3 := ih k k hkn hkn
        rw [if_pos (Or.inl le_rfl)] at h3
        have h4 := ih k j hkn hj
        rw [if_pos (Or.inl le_rfl)] at h4
        rw [h1, h2, h3, h4]
        have hm : (A i k - ∑ t ∈ Finset.range k,
              lu_in_place n A i t * lu_in_place n A t k) / lu_in_place n A k k
            = lu_in_place n A i k := ((lu_spec n A hi hkn).2 hik).symm
        rw [hm]
        by_cases hii : i ≤ k + 1
        · have hieq : i = k + 1 := by omega
          rw [if_pos (Or.inl hii)]
          subst hieq
          rw [(lu_spec n A hi hj).1 (by omega), Finset.sum_range_succ]
          ring
        · rw [if_neg (by omega), Finset.sum_range_succ]
          ring
    · rw [stepsUpTo_succ, gaussStep_fst_notrow n k _ (by omega)]
      have h1 := ih i j hi hj
      rw [if_pos (Or.inl (by omega))] at h1
      rw [h1, if_pos (Or.inl (by omega))]

/-- The matrix buffer left by `gauss_solve_in_place` agrees with the output
of `lu_in_place` on every entry of the `n × n` buffer. -/
lemma gaussFwd_fst_eq_lu (n : ℕ) (A : Mat) (b : Vec) {i j : ℕ}
    (hi : i < n) (hj : j < n) :
    (gaussFwd n A b).1 i j = lu_in_place n A i j := by
  have h := gaussAt_fst_inv n A b n le_rfl i j hi hj
  rw [if_pos (Or.inl (le_of_lt hi))] at h
  exact h

lemma gaussAt_snd_stable (n : ℕ) (A : Mat) (b : Vec) {i m : ℕ} (d : ℕ)
    (him : i ≤ m) :
    (stepsUpTo (gaussStep n) (A, b) (m + d)).2 i
      = (stepsUpTo (gaussStep n) (A, b) m).2 i := by
  induction d with
  | zero => rfl
  | succ d IH =>
    rw [show m + (d + 1) = (m + d) + 1 from rfl, stepsUpTo_succ,
      gaussStep_snd_lo n (m + d) _ (by omega)]
    exact IH

/-- Invariant of the right-hand-side updates of the forward elimination:
after `k` iterations, `b i` has been reduced by the multiplier times the
already-final entries of `b`, which is forward substitution against the
unit-lower factor. -/
lemma gaussAt_snd_inv (n : ℕ) (A : Mat) (b : Vec) :
    ∀ k, k ≤ n → ∀ i, i < n →
      (stepsUpTo (gaussStep n) (A, b) k).2 i
        = b i - ∑ t ∈ Finset.range (min i k),
            lu_in_place n A i t * (gaussFwd n A b).2 t := by
  intro k
  induction k with
  | zero =>
    intro _ i hi
    simp [stepsUpTo]
  | succ k IH =>
    intro hk1 i hi
    have hkn : k < n := hk1
    have ih := IH (le_of_lt hkn)
    by_cases hik : k < i
    · rw [stepsUpTo_succ, gaussStep_snd_hi n k _ hik hi]
      have h2 := gaussAt_fst_inv n A b k (le_of_lt hkn) i k hi hkn
      rw [if_neg (by omega)] at h2
      have h3 := gaussAt_fst_inv n A b k (le_of_lt hkn) k k hkn hkn
      rw [if_pos (Or.inl le_rfl)] at h3
      have h4 : (stepsUpTo (gaussStep n) (A, b) k).2 k = (gaussFwd n A b).2 k := by
        have h5 := gaussAt_snd_stable n A b (i := k) (m := k) (n - k) le_rfl
        rw [show k + (n - k) = n from by omega] at h5
        exact h5.symm
      rw [ih i hi, h2, h3, h4]
      have hm : (A i k - ∑ t ∈ Finset.range k,
            lu_in_place n A i t * lu_in_place n A t k) / lu_in_place n A k k
          = lu_in_place n A i k := ((lu_spec n A hi hkn).2 hik).symm
      rw [hm, show min i k = k from by omega, show min i (k + 1) = k + 1 from by omega,
        Finset.sum_range_succ]
      ring
    · rw [stepsUpTo_succ, gaussStep_snd_lo n k _ (by omega), ih i hi,
        show min i (k + 1) = min i k from by omega]

/-- After the forward phase, `b` holds the result of forward substitution:
`y i = b i - ∑_{t<i} L i t · y t`. -/
lemma gauss_forward_subst (n : ℕ) (A : Mat) (b : Vec) {i : ℕ} (hi : i < n) :
    (gaussFwd n A b).2 i
      = b i - ∑ t ∈ Finset.range i, lu_in_place n A i t * (gaussFwd n A b).2 t := by
  have h := gaussAt_snd_inv n A b n le_rfl i hi
  rw [show min i n = i from by omega] at h
  exact h

/-! ### Back substitution -/

lemma backSubAt_succ (n : ℕ) (U : Mat) (v : Vec) (c : ℕ) :
    backSubAt n U v (c + 1) = backSubStep n (n - 1 - c) U (backSubAt n U v c) := rfl

lemma backSubStep_at (n i : ℕ) (U : Mat) (v : Vec) :
    backSubStep n i U v i
      = (v i - ∑ j ∈ Finset.Ico (i + 1) n, U i j * v j) / U i i := by
  simp [backSubStep]

lemma backSubStep_ne (n i : ℕ) (U : Mat) (v : Vec) {a : ℕ} (h : a ≠ i) :
    backSubStep n i U v a = v a := by
  simp [backSubStep, h]

lemma backSubAt_low (n : ℕ) (U : Mat) (v : Vec) :
    ∀ c i, i < n - c → backSubAt n U v c i = v i := by
  intro c
  induction c with
  | zero => intro i _; rfl
  | succ c IH =>
    intro i hi
    rw [backSubAt_succ, backSubStep_ne n _ U _ (by omega)]
    exact IH i (by omega)

lemma backSubAt_stable (n : ℕ) (U : Mat) (v : Vec) {i c : ℕ} (d : ℕ)
    (hci : n - i ≤ c) (hcd : c + d ≤ n) :
    backSubAt n U v (c + d) i = backSubAt n U v c i := by
  induction d with
  | zero => rfl
  | succ d IH =>
    rw [show c + (d + 1) = (c + d) + 1 from rfl, backSubAt_succ,
      backSubStep_ne n _ U _ (by omega)]
    exact IH (by omega)

/-- The equation each entry satisfies after back substitution: row `i` of
the triangular system holds for the computed solution, provided the
diagonal divisor is nonzero. -/
lemma backSub_solves (n : ℕ) (U : Mat) (v : Vec) {i : ℕ} (hi : i < n)
    (hU : U i i ≠ 0) :
    U i i * backSubAt n U v n i
      = v i - ∑ j ∈ Finset.Ico (i + 1) n, U i j * backSubAt n U v n j := by
  have hstep : backSubAt n U v (n - 1 - i + 1) i
      = (backSubAt n U v (n - 1 - i) i -
          ∑ j ∈ Finset.Ico (i + 1) n, U i j * backSubAt n U v (n - 1 - i) j)
        / U i i := by
    rw [backSubAt_succ, show n - 1 - (n - 1 - i) = i from by omega]
    exact backSubStep_at n i U _
  have hvi : backSubAt n U v (n - 1 - i) i = v i :=
    backSubAt_low n U v (n - 1 - i) i (by omega)
  have hsum : ∑ j ∈ Finset.Ico (i + 1) n, U i j * backSubAt n U v (n - 1 - i) j
      = ∑ j ∈ Finset.Ico (i + 1) n, U i j * backSubAt n U v n j := by
    refine Finset.sum_congr rfl fun j hj => ?_
    have hj' := Finset.mem_Ico.mp hj
    have h := backSubAt_stable n U v (i := j) (c := n - 1 - i) (n - (n - 1 - i))
      (by omega) (by omega)
    rw [show n - 1 - i + (n - (n - 1 - i)) = n from by omega] at h
    rw [h]
  have hfinal : backSubAt n U v n i = backSubAt n U v (n - 1 - i + 1) i := by
    have h := backSubAt_stable n U v (i := i) (c := n - 1 - i + 1)
      (n - (n - 1 - i + 1)) (by omega) (by omega)
    rw [show n - 1 - i + 1 + (n - (n - 1 - i + 1)) = n from by omega] at h
    exact h
  rw [hfinal, hstep, hvi, hsum, mul_comm, div_mul_cancel₀ _ hU]

/-- A pivot encountered by the forward elimination is exactly the final
value of the corresponding diagonal cell of the packed factorization. -/
lemma gaussPivots_final (n : ℕ) (A : Mat) (b : Vec) (h : GaussPivotsNZ n A b) :
    ∀ k : ℕ, k < n → lu_in_place n A k k ≠ 0 := by
  intro k hk
  have h2 := gaussAt_fst_inv n A b k (le_of_lt hk) k k hk hk
  rw [if_pos (Or.inl le_rfl)] at h2
  rw [← h2]
  exact h k hk

lemma gauss_triangular_rows (n : ℕ) (A : Mat) (b : Vec)
    (hdiag : ∀ k : ℕ, k < n → lu_in_place n A k k ≠ 0) :
    ∀ t : ℕ, t < n →
      ∑ j ∈ Finset.range n, Uof (lu_in_place n A) t j * (gauss_solve_in_place n A b).2 j
        = (gaussFwd n A b).2 t := by
  intro t ht
  have hxdef : (gauss_solve_in_place n A b).2
      = backSubAt n (gaussFwd n A b).1 (gaussFwd n A b).2 n := rfl
  have hUt : (gaussFwd n A b).1 t t ≠ 0 := by
    rw [gaussFwd_fst_eq_lu n A b ht ht]
    exact hdiag t ht
  have hb := backSub_solves n (gaussFwd n A b).1 (gaussFwd n A b).2 ht hUt
  have hsplit : ∑ j ∈ Finset.range n,
      Uof (lu_in_place n A) t j * (gauss_solve_in_place n A b).2 j
      = (gaussFwd n A b).1 t t * (gauss_solve_in_place n A b).2 t
        + ∑ j ∈ Finset.Ico (t + 1) n,
            (gaussFwd n A b).1 t j * (gauss_solve_in_place n A b).2 j := by
    rw [← Finset.sum_range_add_sum_Ico _ (show t + 1 ≤ n from ht),
      Finset.sum_range_succ]
    have hz : ∑ j ∈ Finset.range t,
        Uof (lu_in_place n A) t j * (gauss_solve_in_place n A b).2 j = 0 := by
      refine Finset.sum_eq_zero fun j hj => ?_
      have hj' : j < t := Finset.mem_range.mp hj
      have : Uof (lu_in_place n A) t j = 0 := by
        simp only [Uof]
        rw [if_neg (by omega)]
      rw [this, zero_mul]
    have htt : Uof (lu_in_place n A) t t = (gaussFwd n A b).1 t t := by
      simp only [Uof]
      rw [if_pos le_rfl, gaussFwd_fst_eq_lu n A b ht ht]
    have hIco : ∑ j ∈ Finset.Ico (t + 1) n,
        Uof (lu_in_place n A) t j * (gauss_solve_in_place n A b).2 j
        = ∑ j ∈ Finset.Ico (t + 1) n,
            (gaussFwd n A b).1 t j * (gauss_solve_in_place n A b).2 j := by
      refine Finset.sum_congr rfl fun j hj => ?_
      have hj' := Finset.mem_Ico.mp hj
      have : Uof (lu_in_place n A) t j = (gaussFwd n A b).1 t j := by
        simp only [Uof]
        rw [if_pos (by omega), gaussFwd_fst_eq_lu n A b ht hj'.2]
      rw [this]
    rw [hz, zero_add, htt, hIco]
  rw [hsplit, hxdef, hb]
  ring

/-- C1: for every `n ≥ 1` and every `n × n` system whose pivots
`A[k][k]` encountered during forward elimination are all nonzero, after
`gauss_solve_in_place` the vector `b` holds a solution of the original
system: in exact arithmetic, `A_original · x = b_original` row by row — in
particular the residual vanishes, so the spec's `1e-6` bound holds at its
concrete instance. -/
theorem C1_gauss_solve_solves (n : ℕ) (A : Mat) (b : Vec) (hn : 1 ≤ n)
    (hp : GaussPivotsNZ n A b) :
    ∀ i : ℕ, i < n →
      ∑ j ∈ Finset.range n, A i j * (gauss_solve_in_place n A b).2 j = b i := by
  intro i hi
  have hdiag : ∀ k : ℕ, k < n → lu_in_place n A k k ≠ 0 := gaussPivots_final n A b hp
  have hdecomp : ∀ j, j < n → A i j = ∑ t ∈ Finset.range n,
      Lof (lu_in_place n A) i t * Uof (lu_in_place n A) t j :=
    fun j hj => lu_decomp n A (fun k hk => hdiag k (by omega)) hi hj
  have h1 : ∑ j ∈ Finset.range n, A i j * (gauss_solve_in_place n A b).2 j
      = ∑ j ∈ Finset.range n, (∑ t ∈ Finset.range n,
          Lof (lu_in_place n A) i t * Uof (lu_in_place n A) t j)
            * (gauss_solve_in_place n A b).2 j := by
    refine Finset.sum_congr rfl fun j hj => ?_
    rw [← hdecomp j (Finset.mem_range.mp hj)]
  have h2 : ∑ j ∈ Finset.range n, (∑ t ∈ Finset.range n,
        Lof (lu_in_place n A) i t * Uof (lu_in_place n A) t j)
          * (gauss_solve_in_place n A b).2 j
      = ∑ t ∈ Finset.range n, Lof (lu_in_place n A) i t
          * ∑ j ∈ Finset.range n,
              Uof (lu_in_place n A) t j * (gauss_solve_in_place n A b).2 j := by
    simp only [Finset.sum_mul]
    rw [Finset.sum_comm]
    simp only [mul_assoc, ← Finset.mul_sum]
  have h3 : ∑ t ∈ Finset.range n, Lof (lu_in_place n A) i t
        * ∑ j ∈ Finset.range n,
            Uof (lu_in_place n A) t j * (gauss_solve_in_place n A b).2 j
      = ∑ t ∈ Finset.range n, Lof (lu_in_place n A) i t * (gaussFwd n A b).2 t := by
    refine Finset.sum_congr rfl fun t ht => ?_
    rw [gauss_triangular_rows n A b hdiag t (Finset.mem_range.mp ht)]
  have h4 : ∑ t ∈ Finset.range n, Lof (lu_in_place n A) i t * (gaussFwd n A b).2 t
      = b i := by
    rw [sum_Lof (lu_in_place n A) (gaussFwd n A b).2 hi,
      gauss_forward_subst n A b hi]
    ring
  rw [h1, h2, h3, h4]

/-- Witness for C1 at the driver's test system `A = [[2,3,-1],[4,1,2],[-2,7,2]]`,
`b = [5,6,3]`. -/
theorem C1_gauss_solve_solves_witness :
    (1 ≤ 3 ∧ GaussPivotsNZ 3 Aex bex) ∧
      ∀ i : ℕ, i < 3 →
        ∑ j ∈ Finset.range 3, Aex i j * (gauss_solve_in_place 3 Aex bex).2 j = bex i := by
  have hp : GaussPivotsNZ 3 Aex bex := by
    intro k hk
    interval_cases k <;>
      norm_num [stepsUpTo_succ, stepsUpTo_zero, gaussStep, Aex, bex, ofRows, ofVec]
  exact ⟨⟨by norm_num, hp⟩, C1_gauss_solve_solves 3 Aex bex (by norm_num) hp⟩

/-- C3: for every `n ≥ 1` and `n × n` matrix whose divisors during
`lu_in_place` are all nonzero, the packed output factors the original
matrix: `A = L·U` with the unit-lower `L` read from the strict-lower
entries and `U` read from the diagonal and above. -/
theorem C3_lu_factorizes (n : ℕ) (A : Mat) (hn : 1 ≤ n) (hd : LuDivisorsNZ n A) :
    ∀ i j : ℕ, i < n → j < n →
      A i j = ∑ t ∈ Finset.range n,
        Lof (lu_in_place n A) i t * Uof (lu_in_place n A) t j :=
  fun i j hi hj => lu_decomp n A (luDivisors_final n A hd) hi hj

/-- Witness for C3 at the driver's test matrix. -/
theorem C3_lu_factorizes_witness :
    (1 ≤ 3 ∧ LuDivisorsNZ 3 Aex) ∧
      ∀ i j : ℕ, i < 3 → j < 3 →
        Aex i j = ∑ t ∈ Finset.range 3,
          Lof (lu_in_place 3 Aex) i t * Uof (lu_in_place 3 Aex) t j := by
  have hd : LuDivisorsNZ 3 Aex := by
    intro k hk hk1
    interval_cases k <;>
      norm_num [stepsUpTo_succ, stepsUpTo_zero, luStep, luPhase1, luPhase2,
        Finset.sum_range_succ, Aex, ofRows]
  exact ⟨⟨by norm_num, hd⟩, C3_lu_factorizes 3 Aex (by norm_num) hd⟩

/-- C10: under nonzero elimination pivots, the matrix buffer left by
`gauss_solve_in_place` coincides entry by entry with the output of
`lu_in_place` on the same original matrix — the two distinct update orders
compute the identical packed factorization — and the back-substitution
phase leaves the matrix buffer exactly as the forward phase produced it. -/
theorem C10_gauss_buffer_eq_lu (n : ℕ) (A : Mat) (b : Vec) (hn : 1 ≤ n)
    (hp : GaussPivotsNZ n A b) :
    (∀ i j : ℕ, i < n → j < n →
        (gauss_solve_in_place n A b).1 i j = lu_in_place n A i j) ∧
      (gauss_solve_in_place n A b).1 = (gaussFwd n A b).1 :=
  ⟨fun i j hi hj => gaussFwd_fst_eq_lu n A b hi hj, rfl⟩

/-- Witness for C10 at the driver's test system. -/
theorem C10_gauss_buffer_eq_lu_witness :
    (1 ≤ 3 ∧ GaussPivotsNZ 3 Aex bex) ∧
      (∀ i j : ℕ, i < 3 → j < 3 →
          (gauss_solve_in_place 3 Aex bex).1 i j = lu_in_place 3 Aex i j) ∧
        (gauss_solve_in_place 3 Aex bex).1 = (gaussFwd 3 Aex bex).1 := by
  have hp : GaussPivotsNZ 3 Aex bex := by
    intro k hk
    interval_cases k <;>
      norm_num [stepsUpTo_succ, stepsUpTo_zero, gaussStep, Aex, bex, ofRows, ofVec]
  exact ⟨⟨by norm_num, hp⟩, C10_gauss_buffer_eq_lu 3 Aex bex (by norm_num) hp⟩

/-! ### The reconstruction kernel inverts the factorization kernel -/

lemma luPhase1_off (n k : ℕ) (M : Mat) {a b : ℕ}
    (h : ¬(a = k ∧ k ≤ b ∧ b < n)) : luPhase1 n k M a b = M a b := by
  simp only [luPhase1]
  rw [if_neg (by tauto)]

lemma luPhase2_col (n k a : ℕ) (M : Mat) (ha : k < a) (han : a < n) :
    luPhase2 n k M a k
      = (M a k - ∑ j ∈ Finset.range k, M a j * M j k) / M k k := by
  simp only [luPhase2]
  rw [if_pos (show k < a ∧ a < n ∧ True from ⟨ha, han, trivial⟩)]

lemma luPhase2_off (n k : ℕ) (M : Mat) {a b : ℕ}
    (h : ¬(k < a ∧ a < n ∧ b = k)) : luPhase2 n k M a b = M a b := by
  simp only [luPhase2]
  rw [if_neg (by tauto)]

lemma reconMul_col (n k a : ℕ) (M : Mat) (ha : k < a) (han : a < n) :
    reconMul n k M a k
      = M a k * M k k + ∑ j ∈ Finset.range k, M a j * M j k := by
  simp only [reconMul]
  rw [if_pos (show k < a ∧ a < n ∧ True from ⟨ha, han, trivial⟩)]

lemma reconMul_off (n k : ℕ) (M : Mat) {a b : ℕ}
    (h : ¬(k < a ∧ a < n ∧ b = k)) : reconMul n k M a b = M a b := by
  simp only [reconMul]
  rw [if_neg (by tauto)]

lemma reconAdd_row (n k b : ℕ) (M : Mat) (hb : k ≤ b) (hbn : b < n) :
    reconAdd n k M k b = M k b + ∑ j ∈ Finset.range k, M k j * M j b := by
  simp only [reconAdd]
  rw [if_pos (show True ∧ k ≤ b ∧ b < n from ⟨trivial, hb, hbn⟩)]

lemma reconAdd_off (n k : ℕ) (M : Mat) {a b : ℕ}
    (h : ¬(a = k ∧ k ≤ b ∧ b < n)) : reconAdd n k M a b = M a b := by
  simp only [reconAdd]
  rw [if_neg (by tauto)]

/-- One iteration of `lu_in_place_reconstruct` undoes the matching
iteration of `lu_in_place`: the multiply-and-add-back sweeps are the exact
inverses of the subtract-and-divide sweeps, provided the divisor of that
iteration was nonzero (no divisor exists at the last pivot). -/
lemma reconStep_luStep (n k : ℕ) (M : Mat) (hkn : k < n)
    (hpiv : k + 1 < n → luPhase1 n k M k k ≠ 0) :
    reconStep n k (luStep n k M) = M := by
  funext a b
  simp only [reconStep, luStep]
  by_cases hA : a = k ∧ k ≤ b ∧ b < n
  · obtain ⟨ha, hkb, hbn⟩ := hA
    subst ha
    have hnotB : ¬(a < a ∧ a < n ∧ b = a) := by omega
    rw [reconAdd_row n a b _ hkb hbn, reconMul_off n a _ hnotB,
      luPhase2_off n a _ hnotB, luPhase1_row n a b M hkb hbn]
    have hs : ∑ j ∈ Finset.range a,
        reconMul n a (luPhase2 n a (luPhase1 n a M)) a j
          * reconMul n a (luPhase2 n a (luPhase1 n a M)) j b
        = ∑ j ∈ Finset.range a, M a j * M j b := by
      refine Finset.sum_congr rfl fun j hj => ?_
      have hj' : j < a := Finset.mem_range.mp hj
      rw [reconMul_off n a _ (by omega), reconMul_off n a _ (by omega),
        luPhase2_off n a _ (by omega), luPhase2_off n a _ (by omega),
        luPhase1_off n a M (by omega), luPhase1_off n a M (by omega)]
    rw [hs]
    ring
  · by_cases hB : k < a ∧ a < n ∧ b = k
    · obtain ⟨hka, han, hb⟩ := hB
      subst hb
      have hkn1 : b + 1 < n := by omega
      rw [reconAdd_off n b _ (by omega), reconMul_col n b a _ hka han,
        luPhase2_col n b a _ hka han]
      have hTkk : luPhase2 n b (luPhase1 n b M) b b = luPhase1 n b M b b :=
        luPhase2_off n b _ (by omega)
      rw [hTkk]
      have hTak : luPhase1 n b M a b = M a b := luPhase1_off n b M (by omega)
      have hs : ∑ j ∈ Finset.range b,
          luPhase1 n b M a j * luPhase1 n b M j b
          = ∑ j ∈ Finset.range b, M a j * M j b := by
        refine Finset.sum_congr rfl fun j hj => ?_
        have hj' : j < b := Finset.mem_range.mp hj
        rw [luPhase1_off n b M (by omega), luPhase1_off n b M (by omega)]
      have hs2 : ∑ j ∈ Finset.range b,
          luPhase2 n b (luPhase1 n b M) a j * luPhase2 n b (luPhase1 n b M) j b
          = ∑ j ∈ Finset.range b, M a j * M j b := by
        refine Finset.sum_congr rfl fun j hj => ?_
        have hj' : j < b := Finset.mem_range.mp hj
        rw [luPhase2_off n b _ (by omega), luPhase2_off n b _ (by omega),
          luPhase1_off n b M (by omega), luPhase1_off n b M (by omega)]
      rw [hTak, hs, hs2, div_mul_cancel₀ _ (hpiv hkn1)]
      ring
    · rw [reconAdd_off n k _ hA, reconMul_off n k _ hB,
        luPhase2_off n k _ hB, luPhase1_off n k M hA]

/-- Telescoping: after `c` iterations of the reconstruction loop on the
factorizer's output, the buffer equals the factorizer's state with the last
`c` iterations undone. -/
lemma recon_undoes (n : ℕ) (A : Mat) (hd : LuDivisorsNZ n A) :
    ∀ c, c ≤ n →
      stepsUpTo (fun c M => reconStep n (n - 1 - c) M) (lu_in_place n A) c
        = stepsUpTo (luStep n) A (n - c) := by
  intro c
  induction c with
  | zero => intro _; rfl
  | succ c IH =>
    intro hc1
    rw [stepsUpTo_succ, IH (by omega)]
    rw [show n - c = (n - 1 - c) + 1 from by omega, stepsUpTo_succ,
      show n - (c + 1) = n - 1 - c from by omega]
    exact reconStep_luStep n (n - 1 - c) _ (by omega)
      (fun h1 => hd (n - 1 - c) (by omega) h1)

/-- C4: running `lu_in_place` and then `lu_in_place_reconstruct` on the
same buffer restores every entry of the original matrix exactly (in exact
arithmetic, whenever the factorizer's divisions are defined), hence within
any positive tolerance in floating point. -/
theorem C4_lu_roundtrip (n : ℕ) (A : Mat) (hn : 1 ≤ n) (hd : LuDivisorsNZ n A) :
    lu_in_place_reconstruct n (lu_in_place n A) = A := by
  have h := recon_undoes n A hd n le_rfl
  rw [show n - n = 0 from by omega] at h
  exact h

/-- Witness for C4 at the driver's test matrix. -/
theorem C4_lu_roundtrip_witness :
    (1 ≤ 3 ∧ LuDivisorsNZ 3 Aex) ∧
      lu_in_place_reconstruct 3 (lu_in_place 3 Aex) = Aex := by
  have hd : LuDivisorsNZ 3 Aex := by
    intro k hk hk1
    interval_cases k <;>
      norm_num [stepsUpTo_succ, stepsUpTo_zero, luStep, luPhase1, luPhase2,
        Finset.sum_range_succ, Aex, ofRows]
  exact ⟨⟨by norm_num, hd⟩, C4_lu_roundtrip 3 Aex (by norm_num) hd⟩

/-! ### Pivot selection in `plu` -/

lemma maxRowAux_mem {α : Type} (sc : Scal α) (M : ℕ → ℕ → α) (k : ℕ) :
    ∀ (l : List ℕ) (m : ℕ), maxRowAux sc M k l m = m ∨ maxRowAux sc M k l m ∈ l := by
  intro l
  induction l with
  | nil => intro m; exact Or.inl rfl
  | cons i rest IH =>
    intro m
    simp only [maxRowAux]
    by_cases hc : sc.gtAbs (M i k) (M m k) = true
    · rw [if_pos hc]
      rcases IH i with h | h
      · exact Or.inr (by rw [h]; exact List.mem_cons_self i rest)
      · exact Or.inr (List.mem_cons_of_mem i h)
    · rw [if_neg hc]
      rcases IH m with h | h
      · exact Or.inl h
      · exact Or.inr (List.mem_cons_of_mem i h)

lemma maxRow_bounds {α : Type} (sc : Scal α) (n : ℕ) (M : ℕ → ℕ → α) (k : ℕ)
    (hk : k < n) : k ≤ maxRow sc n M k ∧ maxRow sc n M k < n := by
  rcases maxRowAux_mem sc M k (List.range' (k + 1) (n - (k + 1))) k with h | h
  · rw [maxRow, h]
    omega
  · have h2 := List.mem_range'_1.mp h
    rw [maxRow]
    omega

lemma maxRowAux_max (M : Mat) (k : ℕ) :
    ∀ (l : List ℕ) (m : ℕ),
      |M m k| ≤ |M (maxRowAux ratScal M k l m) k| ∧
        ∀ i ∈ l, |M i k| ≤ |M (maxRowAux ratScal M k l m) k| := by
  intro l
  induction l with
  | nil => intro m; exact ⟨le_rfl, fun i h => absurd h (List.not_mem_nil i)⟩
  | cons i rest IH =>
    intro m
    simp only [maxRowAux]
    by_cases hc : |M m k| < |M i k|
    · rw [if_pos (by simp only [ratScal]; exact decide_eq_true hc)]
      obtain ⟨h1, h2⟩ := IH i
      refine ⟨le_trans (le_of_lt hc) h1, fun t ht => ?_⟩
      rcases List.mem_cons.mp ht with rfl | ht'
      · exact h1
      · exact h2 t ht'
    · rw [if_neg (by simp only [ratScal]; simp [hc])]
      obtain ⟨h1, h2⟩ := IH m
      refine ⟨h1, fun t ht => ?_⟩
      rcases List.mem_cons.mp ht with rfl | ht'
      · exact le_trans (not_lt.mp hc) h1
      · exact h2 t ht'

lemma maxRowAux_stays {α : Type} (sc : Scal α) (M : ℕ → ℕ → α) (k : ℕ) :
    ∀ (l : List ℕ) (m : ℕ),
      (∀ i ∈ l, sc.gtAbs (M i k) (M m k) = false) →
      maxRowAux sc M k l m = m := by
  intro l
  induction l with
  | nil => intro m _; rfl
  | cons i rest IH =>
    intro m h
    simp only [maxRowAux]
    rw [if_neg (by simp [h i (List.mem_cons_self i rest)])]
    exact IH m fun t ht => h t (List.mem_cons_of_mem i ht)

/-- C6: at every pivot column `k`, `plu` selects `max_row` in
`{k, …, n-1}` maximizing `|A[i][k]|` over the current column, the swap of
rows and of `P` entries happens exactly when `max_row ≠ k`, and in the
spec's scenario (`A[k][k] = 0`, `A[k+1][k] = 5`, nothing of larger
magnitude below) the selected row is `k+1`. -/
theorem C6_pivot_selection (n k : ℕ) (M : Mat) (hk : k < n) :
    (k ≤ maxRow ratScal n M k ∧ maxRow ratScal n M k < n) ∧
    (∀ i : ℕ, k ≤ i → i < n → |M i k| ≤ |M (maxRow ratScal n M k) k|) ∧
    (∀ p : ℕ → ℕ, pluSwapPhase ratScal n k (M, p)
        = if maxRow ratScal n M k ≠ k
          then (rowSwap n k (maxRow ratScal n M k) M, swapFun p k (maxRow ratScal n M k))
          else (M, p)) ∧
    (M k k = 0 → M (k + 1) k = 5 →
      (∀ i : ℕ, k + 1 < i → i < n → |M i k| ≤ 5) → k + 1 < n →
      maxRow ratScal n M k = k + 1) := by
  refine ⟨maxRow_bounds ratScal n M k hk, ?_, ?_, ?_⟩
  · intro i hki hin
    obtain ⟨h1, h2⟩ := maxRowAux_max M k (List.range' (k + 1) (n - (k + 1))) k
    rcases Nat.eq_or_lt_of_le hki with rfl | hlt
    · exact h1
    · exact h2 i (List.mem_range'_1.mpr ⟨by omega, by omega⟩)
  · intro p
    rfl
  · intro h0 h5 hle hk1
    rw [maxRow, show n - (k + 1) = (n - (k + 2)) + 1 from by omega,
      List.range'_succ]
    simp only [maxRowAux]
    rw [if_pos (show ratScal.gtAbs (M (k + 1) k) (M k k) = true by
      simp only [ratScal, h0, h5]
      rw [decide_eq_true_eq]
      norm_num)]
    apply maxRowAux_stays
    intro i hi
    have hi' := List.mem_range'_1.mp hi
    have hle5 : |M i k| ≤ |M (k + 1) k| := by
      rw [h5]
      have := hle i (by omega) (by omega)
      calc |M i k| ≤ 5 := this
        _ = |(5 : ℚ)| := by norm_num
    simp only [ratScal]
    simp [not_lt.mpr hle5]

/-- Witness for C6 at the 2×2 scenario matrix `[[0,1],[5,2]]`, column 0. -/
theorem C6_pivot_selection_witness :
    (0 < 2) ∧
    ((0 ≤ maxRow ratScal 2 Apw 0 ∧ maxRow ratScal 2 Apw 0 < 2) ∧
    (∀ i : ℕ, 0 ≤ i → i < 2 → |Apw i 0| ≤ |Apw (maxRow ratScal 2 Apw 0) 0|) ∧
    (∀ p : ℕ → ℕ, pluSwapPhase ratScal 2 0 (Apw, p)
        = if maxRow ratScal 2 Apw 0 ≠ 0
          then (rowSwap 2 0 (maxRow ratScal 2 Apw 0) Apw, swapFun p 0 (maxRow ratScal 2 Apw 0))
          else (Apw, p)) ∧
    (Apw 0 0 = 0 → Apw (0 + 1) 0 = 5 →
      (∀ i : ℕ, 0 + 1 < i → i < 2 → |Apw i 0| ≤ 5) → 0 + 1 < 2 →
      maxRow ratScal 2 Apw 0 = 0 + 1)) :=
  ⟨by norm_num, C6_pivot_selection 2 0 Apw (by norm_num)⟩

/-! ### The permutation array of `plu` -/

lemma swapFun_eq_comp (p : ℕ → ℕ) (a b : ℕ) :
    swapFun p a b = fun i => p (Equiv.swap a b i) := by
  funext i
  simp only [swapFun, Equiv.swap_apply_def]
  by_cases h1 : i = a
  · simp [h1]
  · by_cases h2 : i = b
    · by_cases h3 : b = a <;> simp [h1, h2, h3]
    · simp [h1, h2]

/-- The permutation array is initialized to the identity and only ever
modified by swapping two entries at indices below `n`; it therefore stays a
bijection fixing every index `≥ n`, for arbitrary input matrices. -/
lemma plu_perm_inv (n : ℕ) (A : Mat) :
    ∀ k, k ≤ n →
      Function.Bijective (stepsUpTo (pluStep ratScal n) (A, fun i => i) k).2 ∧
        ∀ i, n ≤ i → (stepsUpTo (pluStep ratScal n) (A, fun i => i) k).2 i = i := by
  intro k
  induction k with
  | zero => intro _; exact ⟨Function.bijective_id, fun i _ => rfl⟩
  | succ k IH =>
    intro hk1
    obtain ⟨hbij, hfix⟩ := IH (by omega)
    rw [stepsUpTo_succ]
    set st := stepsUpTo (pluStep ratScal n) (A, fun i => i) k with hst
    by_cases hm : maxRow ratScal n st.1 k ≠ k
    · have hsnd : (pluStep ratScal n k st).2
          = swapFun st.2 k (maxRow ratScal n st.1 k) := by
        simp only [pluStep, pluSwapPhase]
        rw [if_pos hm]
      obtain ⟨hmk, hmn⟩ := maxRow_bounds ratScal n st.1 k (by omega)
      rw [hsnd, swapFun_eq_comp]
      constructor
      · exact hbij.comp (Equiv.swap k (maxRow ratScal n st.1 k)).bijective
      · intro i hi
        show st.2 (Equiv.swap k (maxRow ratScal n st.1 k) i) = i
        rw [Equiv.swap_apply_of_ne_of_ne (by omega) (by omega)]
        exact hfix i hi
    · have hsnd : (pluStep ratScal n k st).2 = st.2 := by
        simp only [pluStep, pluSwapPhase]
        rw [if_neg hm]
      rw [hsnd]
      exact ⟨hbij, hfix⟩

/-- C5: for every input matrix (including singular ones), after `plu` the
array `P` is a bijection on `{0, …, n-1}`: every value `v < n` occurs at
exactly one position `i < n`. -/
theorem C5_plu_permutation (n : ℕ) (A : Mat) :
    ∀ v : ℕ, v < n → ∃! i : ℕ, i < n ∧ (plu n A).2 i = v := by
  intro v hv
  obtain ⟨hbij, hfix⟩ := plu_perm_inv n A n le_rfl
  obtain ⟨i, hi⟩ := hbij.2 v
  have hin : i < n := by
    by_contra h
    push_neg at h
    rw [hfix i h] at hi
    omega
  refine ⟨i, ⟨hin, hi⟩, ?_⟩
  rintro j ⟨hjn, hj⟩
  exact hbij.1 (hj.trans hi.symm)

/-- Witness for C5 at the PLU driver's test matrix and value `0`. -/
theorem C5_plu_permutation_witness :
    0 < 3 ∧ ∃! i : ℕ, i < 3 ∧ (plu 3 Apx).2 i = 0 :=
  ⟨by norm_num, C5_plu_permutation 3 Apx 0 (by norm_num)⟩

/-! ### The permuted factorization computed by `plu` -/

lemma rowSwap_left {α : Type} (n a b : ℕ) (M : ℕ → ℕ → α) {j : ℕ} (hj : j < n) :
    rowSwap n a b M a j = M b j := by
  simp [rowSwap, hj]

lemma rowSwap_right {α : Type} (n a b : ℕ) (M : ℕ → ℕ → α) {j : ℕ} (hj : j < n)
    (hne : b ≠ a) : rowSwap n a b M b j = M a j := by
  simp [rowSwap, hj, hne]

lemma rowSwap_other {α : Type} (n a b : ℕ) (M : ℕ → ℕ → α) {i j : ℕ}
    (h1 : i ≠ a) (h2 : i ≠ b) : rowSwap n a b M i j = M i j := by
  simp [rowSwap, h1, h2]

lemma swapFun_left (p : ℕ → ℕ) (a b : ℕ) : swapFun p a b a = p b := by
  simp [swapFun]

lemma swapFun_right (p : ℕ → ℕ) (a b : ℕ) (hne : b ≠ a) :
    swapFun p a b b = p a := by
  simp [swapFun, hne]

lemma swapFun_other (p : ℕ → ℕ) (a b : ℕ) {i : ℕ} (h1 : i ≠ a) (h2 : i ≠ b) :
    swapFun p a b i = p i := by
  simp [swapFun, h1, h2]

lemma elimStep_notrow (n k : ℕ) (M : Mat) {i j : ℕ} (h : ¬(k < i ∧ i < n)) :
    elimStep ratScal n k M i j = M i j := by
  simp only [elimStep]
  rw [if_neg h]

lemma elimStep_mult (n k : ℕ) (M : Mat) {i : ℕ} (hik : k < i) (hi : i < n) :
    elimStep ratScal n k M i k = M i k / M k k := by
  simp only [elimStep]
  rw [if_pos ⟨hik, hi⟩]
  simp [ratScal]

lemma elimStep_keep (n k : ℕ) (M : Mat) {i j : ℕ} (hik : k < i) (hi : i < n)
    (hjk : j < k) : elimStep ratScal n k M i j = M i j := by
  simp only [elimStep]
  rw [if_pos ⟨hik, hi⟩, if_neg (by omega), if_neg (by omega)]

lemma elimStep_upd (n k : ℕ) (M : Mat) {i j : ℕ} (hik : k < i) (hi : i < n)
    (hkj : k < j) (hj : j < n) :
    elimStep ratScal n k M i j = M i j - M i k / M k k * M k j := by
  simp only [elimStep]
  rw [if_pos ⟨hik, hi⟩, if_neg (by omega), if_pos ⟨hkj, hj⟩]
  simp [ratScal]

lemma pluInv_zero (n : ℕ) (A : Mat) : PluInvariant n A 0 A (fun i => i) := by
  intro i j hi hj
  simp

/-- A row swap among rows `≥ k` together with the matching `P` swap
preserves the `plu` loop invariant at stage `k`. -/
lemma pluInv_swap (n : ℕ) (A : Mat) (k m : ℕ) (M : Mat) (p : ℕ → ℕ)
    (hkm : k ≤ m) (hmn : m < n) (hkn : k < n) (hne : m ≠ k)
    (hinv : PluInvariant n A k M p) :
    PluInvariant n A k (rowSwap n k m M) (swapFun p k m) := by
  intro i j hi hj
  rcases eq_or_ne i k with hik | hik
  · -- row k of the swapped matrix is old row m, and the new P k is old P m
    rw [hik, swapFun_left p k m]
    have h := hinv m j hmn hj
    rw [show min m k = k from by omega] at h
    rw [min_self]
    have hrow : ∀ t ∈ Finset.range k,
        rowSwap n k m M k t * Uof (rowSwap n k m M) t j = M m t * Uof M t j := by
      intro t ht
      have ht' : t < k := Finset.mem_range.mp ht
      rw [rowSwap_left n k m M (by omega)]
      have hU : rowSwap n k m M t j = M t j :=
        rowSwap_other n k m M (by omega) (by omega)
      simp only [Uof, hU]
    rw [Finset.sum_congr rfl hrow]
    rcases lt_or_le j k with hjk | hkj
    · rw [if_neg (by omega), if_pos hjk]
      rw [if_neg (by omega), if_pos hjk] at h
      exact h
    · rw [if_neg (by omega), if_neg (by omega), rowSwap_left n k m M hj]
      rw [if_neg (by omega), if_neg (by omega)] at h
      exact h
  · rcases eq_or_ne i m with him | him
    · -- row m of the swapped matrix is old row k, and the new P m is old P k
      rw [him, swapFun_right p k m hne]
      have h := hinv k j hkn hj
      rw [min_self] at h
      rw [show min m k = k from by omega]
      have hrow : ∀ t ∈ Finset.range k,
          rowSwap n k m M m t * Uof (rowSwap n k m M) t j = M k t * Uof M t j := by
        intro t ht
        have ht' : t < k := Finset.mem_range.mp ht
        rw [rowSwap_right n k m M (by omega) hne]
        have hU : rowSwap n k m M t j = M t j :=
          rowSwap_other n k m M (by omega) (by omega)
        simp only [Uof, hU]
      rw [Finset.sum_congr rfl hrow]
      rcases lt_or_le j k with hjk | hkj
      · rw [if_neg (by omega), if_pos hjk]
        rw [if_neg (by omega), if_pos hjk] at h
        exact h
      · rw [if_neg (by omega), if_neg (by omega), rowSwap_right n k m M hj hne]
        rw [if_neg (by omega), if_neg (by omega)] at h
        exact h
    · -- any other row and its permutation entry are untouched
      have h := hinv i j hi hj
      rw [swapFun_other p k m hik him]
      have hrow : ∀ t ∈ Finset.range (min i k),
          rowSwap n k m M i t * Uof (rowSwap n k m M) t j = M i t * Uof M t j := by
        intro t ht
        have ht' : t < k := lt_of_lt_of_le (Finset.mem_range.mp ht) (min_le_right i k)
        rw [rowSwap_other n k m M hik him]
        have hU : rowSwap n k m M t j = M t j :=
          rowSwap_other n k m M (by omega) (by omega)
        simp only [Uof, hU]
      rw [Finset.sum_congr rfl hrow]
      rcases lt_or_le i k with hikk | hki
      · rw [if_pos hikk]
        rw [if_pos hikk] at h
        have hU : Uof (rowSwap n k m M) i j = Uof M i j := by
          simp only [Uof, rowSwap_other n k m M hik him]
        rw [hU]
        exact h
      · rcases lt_or_le j k with hjk | hkj
        · rw [if_neg (by omega), if_pos hjk]
          rw [if_neg (by omega), if_pos hjk] at h
          exact h
        · rw [if_neg (by omega), if_neg (by omega), rowSwap_other n k m M hik him]
          rw [if_neg (by omega), if_neg (by omega)] at h
          exact h

/-- The elimination sweep of a `plu` iteration advances the loop invariant
from stage `k` to stage `k+1`, provided the pivot it divides by is nonzero
(no division happens at the last pivot). -/
lemma pluInv_elim (n : ℕ) (A : Mat) (k : ℕ) (M : Mat) (p : ℕ → ℕ)
    (hkn : k < n) (hpiv : k + 1 < n → M k k ≠ 0)
    (hinv : PluInvariant n A k M p) :
    PluInvariant n A (k + 1) (elimStep ratScal n k M) p := by
  intro i j hi hj
  have h := hinv i j hi hj
  by_cases hik : k < i
  · -- active row: the sum gains the new multiplier term
    rw [show min i k = k from by omega] at h
    rw [if_neg (by omega)] at h
    rw [show min i (k + 1) = k + 1 from by omega, Finset.sum_range_succ]
    have hrow : ∀ t ∈ Finset.range k,
        elimStep ratScal n k M i t * Uof (elimStep ratScal n k M) t j
          = M i t * Uof M t j := by
      intro t ht
      have ht' : t < k := Finset.mem_range.mp ht
      rw [elimStep_keep n k M hik hi ht']
      have hU : elimStep ratScal n k M t j = M t j :=
        elimStep_notrow n k M (by omega)
      simp only [Uof, hU]
    rw [Finset.sum_congr rfl hrow, elimStep_mult n k M hik hi]
    have hUkj : Uof (elimStep ratScal n k M) k j = Uof M k j := by
      have hU : elimStep ratScal n k M k j = M k j := elimStep_notrow n k M (by omega)
      simp only [Uof, hU]
    rw [hUkj, if_neg (by omega)]
    rcases lt_trichotomy j k with hjk | hjeq | hkj
    · rw [if_pos (by omega)]
      rw [if_pos hjk] at h
      have hUz : Uof M k j = 0 := by
        simp only [Uof]
        rw [if_neg (by omega)]
      rw [hUz, h]
      ring
    · subst hjeq
      rw [if_pos (by omega)]
      rw [if_neg (by omega)] at h
      have hUd : Uof M j j = M j j := by
        simp only [Uof]
        rw [if_pos le_rfl]
      rw [hUd, h, div_mul_cancel₀ _ (hpiv (by omega))]
      ring
    · rw [if_neg (by omega), elimStep_upd n k M hik hi hkj hj]
      rw [if_neg (by omega)] at h
      have hUkj2 : Uof M k j = M k j := by
        simp only [Uof]
        rw [if_pos (by omega)]
      rw [hUkj2, h]
      ring
  · -- rows ≤ k are untouched by the sweep
    rw [show min i (k + 1) = min i k from by omega]
    have hrow : ∀ t ∈ Finset.range (min i k),
        elimStep ratScal n k M i t * Uof (elimStep ratScal n k M) t j
          = M i t * Uof M t j := by
      intro t ht
      have ht' : t < k := lt_of_lt_of_le (Finset.mem_range.mp ht) (min_le_right i k)
      rw [elimStep_notrow n k M (by omega)]
      have hU : elimStep ratScal n k M t j = M t j :=
        elimStep_notrow n k M (by omega)
      simp only [Uof, hU]
    rw [Finset.sum_congr rfl hrow]
    rcases lt_trichotomy i k with hikk | hieq | hcon
    · rw [if_pos (by omega)]
      rw [if_pos hikk] at h
      have hU : Uof (elimStep ratScal n k M) i j = Uof M i j := by
        have he : elimStep ratScal n k M i j = M i j := elimStep_notrow n k M (by omega)
        simp only [Uof, he]
      rw [hU]
      exact h
    · subst hieq
      rw [if_pos (by omega)]
      rw [if_neg (by omega)] at h
      have hU : Uof (elimStep ratScal n i M) i j
          = if j < i then 0 else M i j := by
        have he : elimStep ratScal n i M i j = M i j := elimStep_notrow n i M (by omega)
        simp only [Uof, he]
        rcases lt_or_le j i with h1 | h1
        · rw [if_neg (by omega), if_pos h1]
        · rw [if_pos h1, if_neg (by omega)]
      rw [hU]
      exact h
    · omega

/-- The `plu` loop invariant holds at every stage of the run, given that no
zero pivot is ever divided by. -/
lemma plu_inv (n : ℕ) (A : Mat) (hp : PluPivotsNZ n A) :
    ∀ k, k ≤ n → PluInvariant n A k
      (stepsUpTo (pluStep ratScal n) (A, fun i => i) k).1
      (stepsUpTo (pluStep ratScal n) (A, fun i => i) k).2 := by
  intro k
  induction k with
  | zero => intro _; exact pluInv_zero n A
  | succ k IH =>
    intro hk1
    have hkn : k < n := hk1
    have ih := IH (by omega)
    rw [stepsUpTo_succ]
    set st := stepsUpTo (pluStep ratScal n) (A, fun i => i) k with hst
    have hmid : PluInvariant n A k (pluSwapPhase ratScal n k st).1
        (pluSwapPhase ratScal n k st).2 := by
      by_cases hm : maxRow ratScal n st.1 k ≠ k
      · have h1 : pluSwapPhase ratScal n k st
            = (rowSwap n k (maxRow ratScal n st.1 k) st.1,
               swapFun st.2 k (maxRow ratScal n st.1 k)) := by
          simp only [pluSwapPhase]
          rw [if_pos hm]
        rw [h1]
        obtain ⟨hmk, hmn⟩ := maxRow_bounds ratScal n st.1 k hkn
        exact pluInv_swap n A k (maxRow ratScal n st.1 k) st.1 st.2 hmk hmn hkn hm ih
      · have h1 : pluSwapPhase ratScal n k st = st := by
          simp only [pluSwapPhase]
          rw [if_neg hm]
        rw [h1]
        exact ih
    have hpiv : k + 1 < n → (pluSwapPhase ratScal n k st).1 k k ≠ 0 :=
      fun h => hp k hkn h
    exact pluInv_elim n A k (pluSwapPhase ratScal n k st).1
      (pluSwapPhase ratScal n k st).2 hkn hpiv hmid

/-- C2: for every `n ≥ 1` and every matrix on which `plu` performs no
zero-pivot division, the permuted original matrix equals the product of the
factors packed in the final buffer: `A[P[i]][j] = (L·U)[i][j]`. -/
theorem C2_plu_factorizes (n : ℕ) (A : Mat) (hn : 1 ≤ n) (hp : PluPivotsNZ n A) :
    ∀ i j : ℕ, i < n → j < n →
      A ((plu n A).2 i) j = ∑ t ∈ Finset.range n,
        Lof (plu n A).1 i t * Uof (plu n A).1 t j := by
  intro i j hi hj
  have h := plu_inv n A hp n le_rfl i j hi hj
  rw [show min i n = i from by omega, if_pos hi] at h
  rw [sum_Lof (plu n A).1 (fun t => Uof (plu n A).1 t j) hi]
  exact h

/-- Witness for C2 at the PLU driver's test matrix
`[[2,-1,-2],[-4,6,3],[-4,-2,8]]`, which performs an actual row swap. -/
theorem C2_plu_factorizes_witness :
    (1 ≤ 3 ∧ PluPivotsNZ 3 Apx) ∧
      ∀ i j : ℕ, i < 3 → j < 3 →
        Apx ((plu 3 Apx).2 i) j = ∑ t ∈ Finset.range 3,
          Lof (plu 3 Apx).1 i t * Uof (plu 3 Apx).1 t j := by
  have hp : PluPivotsNZ 3 Apx := by
    intro k hk hk1
    interval_cases k <;>
      norm_num [stepsUpTo_succ, stepsUpTo_zero, pluStep, pluSwapPhase, elimStep,
        maxRow, maxRowAux, rowSwap, swapFun, ratScal, Apx, ofRows, List.range']
  exact ⟨⟨by norm_num, hp⟩, C2_plu_factorizes 3 Apx (by norm_num) hp⟩

/-! ### Singular input and non-finite propagation in `plu` -/

/-- Invariant for a zero first column: from the first iteration on, every
cell of column 0 below row 0 holds a non-finite value.  The first iteration
creates them by the division `0/0`; later iterations only swap rows with
index `≥ 1` among each other and never touch column 0 again. -/
lemma plu_fv_col0 (n : ℕ) (A : ℕ → ℕ → FV) (hn : 2 ≤ n)
    (hz : ∀ i : ℕ, i < n → A i 0 = FV.fin 0) :
    ∀ k, 1 ≤ k → k ≤ n → ∀ i, 1 ≤ i → i < n →
      (stepsUpTo (pluStep fvScal n) (A, fun i => i) k).1 i 0 = FV.nonfin := by
  intro k
  induction k with
  | zero => intro h; omega
  | succ k IH =>
    intro _ hk1 i hi1 hin
    rcases Nat.eq_zero_or_pos k with rfl | hkpos
    · -- the first iteration divides the zero column by the zero pivot
      rw [stepsUpTo_succ, stepsUpTo_zero]
      have hcol : ∀ a, a < n →
          (pluSwapPhase fvScal n 0 (A, fun i => i)).1 a 0 = FV.fin 0 := by
        intro a ha
        simp only [pluSwapPhase]
        by_cases hm : maxRow fvScal n A 0 ≠ 0
        · rw [if_pos hm]
          obtain ⟨hm0, hmn⟩ := maxRow_bounds fvScal n A 0 (by omega)
          show rowSwap n 0 (maxRow fvScal n A 0) A a 0 = FV.fin 0
          by_cases ha0 : a = 0
          · rw [ha0, rowSwap_left n 0 _ A (by omega)]
            exact hz _ hmn
          · by_cases ham : a = maxRow fvScal n A 0
            · rw [ham, rowSwap_right n 0 _ A (by omega) hm]
              exact hz 0 (by omega)
            · rw [rowSwap_other n 0 _ A ha0 ham]
              exact hz a ha
        · rw [if_neg hm]
          exact hz a ha
      show elimStep fvScal n 0
        (pluSwapPhase fvScal n 0 (A, fun i => i)).1 i 0 = FV.nonfin
      simp only [elimStep]
      rw [if_pos (show 0 < i ∧ i < n from ⟨by omega, hin⟩), if_pos trivial,
        hcol i hin, hcol 0 (by omega)]
      simp [fvScal, FV.div]
    · -- later iterations swap rows ≥ 1 and never write column 0
      rw [stepsUpTo_succ]
      have hk_n : k < n := by omega
      set st := stepsUpTo (pluStep fvScal n) (A, fun i => i) k with hst
      have hIH : ∀ a, 1 ≤ a → a < n → st.1 a 0 = FV.nonfin :=
        fun a h1 h2 => IH (by omega) (by omega) a h1 h2
      have hcol : (pluSwapPhase fvScal n k st).1 i 0 = FV.nonfin := by
        simp only [pluSwapPhase]
        by_cases hm : maxRow fvScal n st.1 k ≠ k
        · rw [if_pos hm]
          obtain ⟨hmk, hmn⟩ := maxRow_bounds fvScal n st.1 k hk_n
          show rowSwap n k (maxRow fvScal n st.1 k) st.1 i 0 = FV.nonfin
          by_cases hik : i = k
          · rw [hik, rowSwap_left n k _ st.1 (by omega)]
            exact hIH _ (by omega) hmn
          · by_cases him : i = maxRow fvScal n st.1 k
            · rw [him, rowSwap_right n k _ st.1 (by omega) hm]
              exact hIH k (by omega) hk_n
            · rw [rowSwap_other n k _ st.1 hik him]
              exact hIH i hi1 hin
        · rw [if_neg hm]
          exact hIH i hi1 hin
      show elimStep fvScal n k (pluSwapPhase fvScal n k st).1 i 0 = FV.nonfin
      simp only [elimStep]
      by_cases hg : k < i ∧ i < n
      · rw [if_pos hg, if_neg (by omega), if_neg (by omega)]
        exact hcol
      · rw [if_neg hg]
        exact hcol

/-- C7: for every `n ≥ 2` and every matrix whose column 0 is entirely zero,
`plu` runs to completion and its output buffer contains a non-finite value
(the division `0/0` at the first pivot produces NaN); no error is
signalled — the kernel is a total function on the abstraction of `double`. -/
theorem C7_plu_zero_column_nonfinite (n : ℕ) (A : ℕ → ℕ → FV) (hn : 2 ≤ n)
    (hz : ∀ i : ℕ, i < n → A i 0 = FV.fin 0) :
    ∃ i j : ℕ, i < n ∧ j < n ∧ (pluRun fvScal n A).1 i j = FV.nonfin := by
  refine ⟨1, 0, by omega, by omega, ?_⟩
  exact plu_fv_col0 n A hn hz n (by omega) le_rfl 1 le_rfl (by omega)

/-- Witness for C7 at the 2×2 matrix with zero first column. -/
theorem C7_plu_zero_column_nonfinite_witness :
    (2 ≤ 2 ∧ ∀ i : ℕ, i < 2 → Azc i 0 = FV.fin 0) ∧
      ∃ i j : ℕ, i < 2 ∧ j < 2 ∧ (pluRun fvScal 2 Azc).1 i j = FV.nonfin := by
  have hz : ∀ i : ℕ, i < 2 → Azc i 0 = FV.fin 0 := fun i _ => by simp [Azc]
  exact ⟨⟨le_rfl, hz⟩, C7_plu_zero_column_nonfinite 2 Azc le_rfl hz⟩

/-! ### Termination of the kernels -/

lemma iterFuel_complete {σ : Type} (f : ℕ → σ → σ) (n : ℕ) (s : σ) :
    ∀ fuel j, n ≤ j + fuel → j ≤ n →
      iterFuel f n fuel j (stepsUpTo f s j) = some (stepsUpTo f s n) := by
  intro fuel
  induction fuel with
  | zero =>
    intro j h1 h2
    have hj : j = n := by omega
    subst hj
    simp [iterFuel]
  | succ fuel IH =>
    intro j h1 h2
    by_cases hj : n ≤ j
    · have hj' : j = n := by omega
      subst hj'
      simp [iterFuel]
    · simp only [iterFuel]
      rw [if_neg hj, show f j (stepsUpTo f s j) = stepsUpTo f s (j + 1) from rfl]
      exact IH (j + 1) (by omega) (by omega)

/-- A counted loop from `0` to `n` completes within `n` units of fuel, and
its result is the direct iteration. -/
lemma iterFuel_run {σ : Type} (f : ℕ → σ → σ) (n : ℕ) (s : σ) :
    iterFuel f n n 0 s = some (stepsUpTo f s n) := by
  have h := iterFuel_complete f n s n 0 (by omega) (by omega)
  rw [stepsUpTo_zero] at h
  exact h

/-- C9: every kernel terminates for every dimension and every input buffer
contents: each outer loop, run under an explicit fuel bound, completes
within its `n` iterations and returns the kernel's value — no call hangs,
and no error code or exception exists in the model (every kernel is a total
function). -/
theorem C9_kernels_terminate (n : ℕ) (A : Mat) (b : Vec) :
    gaussFueled n A b = some (gauss_solve_in_place n A b) ∧
    luFueled n A = some (lu_in_place n A) ∧
    reconFueled n A = some (lu_in_place_reconstruct n A) ∧
    pluFueled n A = some (plu n A) := by
  refine ⟨?_, ?_, ?_, ?_⟩
  · rw [gaussFueled, iterFuel_run (gaussStep n) n (A, b), Option.some_bind,
      iterFuel_run]
    rfl
  · exact iterFuel_run (luStep n) n A
  · exact iterFuel_run _ n A
  · exact iterFuel_run _ n (A, fun i => i)

/-! ### The degenerate size `n = 1` -/

/-- C8: for `n = 1` with a nonzero single entry, every kernel reduces to a
single scalar division or assignment and does not fail:
`gauss_solve_in_place` sets `b[0]` to `b[0]/A[0][0]` and leaves `A[0][0]`
unchanged, `lu_in_place` and `lu_in_place_reconstruct` leave `A[0][0]`
unchanged, and `plu` leaves `A[0][0]` unchanged and sets `P[0] = 0`. -/
theorem C8_degenerate_size (A : Mat) (b : Vec) (h : A 0 0 ≠ 0) :
    (gauss_solve_in_place 1 A b).2 0 = b 0 / A 0 0 ∧
    (gauss_solve_in_place 1 A b).1 0 0 = A 0 0 ∧
    lu_in_place 1 A 0 0 = A 0 0 ∧
    lu_in_place_reconstruct 1 A 0 0 = A 0 0 ∧
    (plu 1 A).1 0 0 = A 0 0 ∧
    (plu 1 A).2 0 = 0 := by
  refine ⟨?_, ?_, ?_, ?_, ?_, ?_⟩
  · norm_num [gauss_solve_in_place, gaussFwd, stepsUpTo_succ, stepsUpTo_zero,
      gaussStep, backSubStep, Finset.Ico_self]
  · norm_num [gauss_solve_in_place, gaussFwd, stepsUpTo_succ, stepsUpTo_zero,
      gaussStep]
  · norm_num [lu_in_place, stepsUpTo_succ, stepsUpTo_zero, luStep, luPhase1,
      luPhase2]
  · norm_num [lu_in_place_reconstruct, stepsUpTo_succ, stepsUpTo_zero,
      reconStep, reconMul, reconAdd]
  · norm_num [plu, pluRun, stepsUpTo_succ, stepsUpTo_zero, pluStep,
      pluSwapPhase, maxRow, maxRowAux, elimStep, List.range']
  · norm_num [plu, pluRun, stepsUpTo_succ, stepsUpTo_zero, pluStep,
      pluSwapPhase, maxRow, maxRowAux, List.range']

/-- Witness for C8 at the 1×1 system `A = [[2]]`, `b = [3]`. -/
theorem C8_degenerate_size_witness :
    (ofRows [[2]] 0 0 ≠ 0) ∧
    ((gauss_solve_in_place 1 (ofRows [[2]]) (ofVec [3])).2 0
        = ofVec [3] 0 / ofRows [[2]] 0 0 ∧
      (gauss_solve_in_place 1 (ofRows [[2]]) (ofVec [3])).1 0 0 = ofRows [[2]] 0 0 ∧
      lu_in_place 1 (ofRows [[2]]) 0 0 = ofRows [[2]] 0 0 ∧
      lu_in_place_reconstruct 1 (ofRows [[2]]) 0 0 = ofRows [[2]] 0 0 ∧
      (plu 1 (ofRows [[2]])).1 0 0 = ofRows [[2]] 0 0 ∧
      (plu 1 (ofRows [[2]])).2 0 = 0) := by
  have h : ofRows [[2]] 0 0 ≠ 0 := by norm_num [ofRows]
  exact ⟨h, C8_degenerate_size (ofRows [[2]]) (ofVec [3]) h⟩
